import Mathlib

/-!
Verification of `generate_lst.py`: the ignore-pattern matcher, the
inclusion-set builder `get_filtered_paths`, the tree renderer
`generate_tree_string`, the document enumerator `iter_source_files`, and the
entry format written by `write_lst`.

A path relative to the walk root is modelled as its list of segments
(`RelPath`).  A filesystem entry seen by `Path.rglob` is modelled as its
relative path together with three oracle bits: whether it is a directory,
whether `is_binary` holds (NUL byte in the first block / unreadable), and
whether its bytes decode under UTF-8 or the cp949 fallback.
-/

namespace GenerateLst

abbrev RelPath := List String

/-- Modelled from the spec: `pathspec`'s `gitwildmatch` compilation is an
external dependency, absent from the repository, so glob matching of one
pattern segment against one path segment follows spec §4.1: a literal
character matches itself and `*` matches any run of characters within one
segment.  `globChars pat s` matches the character list `pat` against `s`. -/
def globChars : List Char → List Char → Bool
  | [], s => s.isEmpty
  | p :: ps, s =>
    if p = '*' then
      (List.range (s.length + 1)).any (fun k => globChars ps (s.drop k))
    else
      match s with
      | [] => false
      | c :: cs => p = c && globChars ps cs

/-- Glob match of one pattern segment against one path segment. -/
def globSeg (pat s : String) : Bool := globChars pat.data s.data

/-- One compiled ignore rule: negation (leading `!`), root anchoring
(leading `/`, or an internal `/` as in gitwildmatch), directory-only
(trailing `/`), and the glob segments. -/
structure IgnoreRule where
  negation : Bool
  anchored : Bool
  dirOnly : Bool
  segs : List String
deriving DecidableEq, Repr

/-- Splits a character list at `/` characters (like `str.split("/")`). -/
def splitOnSlash : List Char → List (List Char)
  | [] => [[]]
  | c :: cs =>
    let r := splitOnSlash cs
    if c = '/' then [] :: r
    else
      match r with
      | [] => [[c]]
      | h :: t => (c :: h) :: t

/-- Modelled from the spec: compilation of one ignore line per §4.1.  Blank
lines and `#` comments yield no rule; a leading `!` marks negation, a
trailing `/` marks a directory-only rule, and a leading or internal `/`
anchors the rule to the root. -/
def parseLine (line : String) : Option IgnoreRule :=
  match line.data with
  | [] => none
  | c0 :: _ =>
    if c0 = '#' then none
    else
      let cs1 := if c0 = '!' then line.data.tail else line.data
      let neg := c0 = '!'
      let dirOnly := cs1.getLast? = some '/'
      let cs2 := if cs1.getLast? = some '/' then cs1.dropLast else cs1
      let lead :=
        match cs2 with
        | c :: _ => c = '/'
        | [] => false
      let cs3 :=
        match cs2 with
        | c :: rest => if c = '/' then rest else cs2
        | [] => cs2
      if cs3 = [] then none
      else
        let segs := (splitOnSlash cs3).map (fun l => String.mk l)
        some ⟨neg, lead || decide (1 < segs.length), dirOnly, segs⟩

/-- Compiles a list of ignore lines into the ordered rule list, skipping
blanks and comments (`PathSpec.from_lines("gitwildmatch", patterns)`). -/
def compileRules (lines : List String) : List IgnoreRule :=
  lines.filterMap parseLine

/-- Modelled from the spec: matching of a rule's segments against path
segments starting at a fixed segment boundary.  A fully consumed pattern
matches (so everything beneath a matched directory also matches); a
directory-only rule additionally requires remaining segments or the query's
trailing slash; `**` matches zero or more whole segments. -/
def matchSegs (dirOnly trailing : Bool) : List String → List String → Bool
  | [], ss => if dirOnly then !ss.isEmpty || trailing else true
  | p :: ps, ss =>
    if p = "**" then
      (List.range (ss.length + 1)).any (fun k => matchSegs dirOnly trailing ps (ss.drop k))
    else
      match ss with
      | [] => false
      | s :: ss2 => globSeg p s && matchSegs dirOnly trailing ps ss2

/-- Modelled from the spec: a rule matches a path (given with or without a
trailing slash, the `trailing` flag) at the root when anchored, and at any
segment boundary when unanchored. -/
def ruleMatches (r : IgnoreRule) (ss : RelPath) (trailing : Bool) : Bool :=
  if r.anchored then matchSegs r.dirOnly trailing r.segs ss
  else (List.range (ss.length + 1)).any (fun k => matchSegs r.dirOnly trailing r.segs (ss.drop k))

/-- Modelled from the spec: `PathSpec.match_file` scans every rule in
declaration order, recording the polarity of each rule that matches; the
result is the polarity of the last match, `false` (not ignored) if none. -/
def matchFile (rules : List IgnoreRule) (ss : RelPath) (trailing : Bool) : Bool :=
  rules.foldl (fun acc r => if ruleMatches r ss trailing then !r.negation else acc) false

/-- The defaults appended by `load_ignore_file` after the user's lines. -/
def defaultIgnores : List String := [".git/", ".lstignore", "lst.txt"]

/-- `load_ignore_file`: user lines from `.lstignore` (possibly none)
followed by the default ignores, compiled into one matcher. -/
def load_ignore_file (userLines : List String) : List IgnoreRule :=
  compileRules (userLines ++ defaultIgnores)

/-- One filesystem entry yielded by `root.rglob("*")`, with its relative
path and the oracle bits for `is_dir`, `is_binary`, and decodability. -/
structure Entry where
  segs : RelPath
  isDir : Bool
  isBinary : Bool
  decodes : Bool
deriving DecidableEq, Repr

/-- The hardcoded output file name used for self-exclusion checks. -/
def output_filename : String := "lst.txt"

/-- The strict ancestors of a path: its proper nonempty segment-prefixes
(the `while str(current) != '.'` loop of `get_filtered_paths`). -/
def strictAncestors (p : RelPath) : List RelPath :=
  (List.range (p.length - 1)).map (fun k => p.take (k + 1))

/-- What one entry contributes to the inclusion set in `get_filtered_paths`:
nothing if the matcher matches the path plain or with a trailing slash
appended, nothing for `lst.txt` at the root, nothing for directories,
nothing for binary files; otherwise the file path and all its strict
ancestors. -/
def entryContrib (spec : List IgnoreRule) (e : Entry) : List RelPath :=
  if matchFile spec e.segs false || matchFile spec e.segs true then []
  else if e.segs = [output_filename] then []
  else if e.isDir then []
  else if e.isBinary then []
  else e.segs :: strictAncestors e.segs

/-- `get_filtered_paths`: the set of relative paths of included files and
their ancestor directories. -/
def get_filtered_paths (entries : List Entry) (spec : List IgnoreRule) : Finset RelPath :=
  (entries.flatMap (entryContrib spec)).toFinset

/-- The per-entry filter of `iter_source_files`: keep non-directories whose
plain relative path is not matched, excluding `.lstignore` and `lst.txt` at
the root. -/
def iterKeep (spec : List IgnoreRule) (e : Entry) : Bool :=
  !e.isDir && !matchFile spec e.segs false &&
    !(decide (e.segs = [".lstignore"])) && !(decide (e.segs = [output_filename]))

/-- `iter_source_files`: the relative paths yielded for the document pass. -/
def iter_source_files (entries : List Entry) (spec : List IgnoreRule) : List RelPath :=
  (entries.filter (iterKeep spec)).map (fun e => e.segs)

/-- The per-entry filter of `write_lst` on top of `iter_source_files`:
binary files are skipped, and files whose bytes decode neither as UTF-8 nor
as cp949 are skipped. -/
def documentKeep (spec : List IgnoreRule) (e : Entry) : Bool :=
  iterKeep spec e && !e.isBinary && e.decodes

/-- The relative paths whose contents are emitted into the document. -/
def documentFiles (entries : List Entry) (spec : List IgnoreRule) : List RelPath :=
  (entries.filter (documentKeep spec)).map (fun e => e.segs)

/-- Code-point key of one segment; Python compares strings by code points. -/
def segKey (s : String) : List Nat := s.data.map Char.toNat

/-- Code-point key of a path; Python's `sorted` over `pathlib` paths
compares the tuples of segments. -/
def pathKey (p : RelPath) : List (List Nat) := p.map segKey

/-- The sort order used by `sorted(list(included_relative_paths))`:
lexicographic over segment sequences, segments compared by code points. -/
def pathLe (p q : RelPath) : Prop := pathKey p ≤ pathKey q

/-- Strict version of `pathLe`. -/
def pathLt (p q : RelPath) : Prop := pathKey p < pathKey q

instance : DecidableRel pathLe :=
  fun p q => inferInstanceAs (Decidable (pathKey p ≤ pathKey q))

instance : DecidableRel pathLt :=
  fun p q => inferInstanceAs (Decidable (pathKey p < pathKey q))

instance : IsTrans RelPath pathLe :=
  ⟨fun _ _ _ h1 h2 => le_trans h1 h2⟩

instance : IsTotal RelPath pathLe :=
  ⟨fun a b => le_total (pathKey a) (pathKey b)⟩

instance : IsAntisymm RelPath pathLe :=
  ⟨fun a b h1 h2 => by
    have hchar : Function.Injective Char.toNat := fun c d hcd => by
      have h2 := congrArg Char.ofNat hcd
      simpa [Char.ofNat_toNat] using h2
    have hseg : Function.Injective segKey := fun s t hst =>
      String.ext (List.map_injective_iff.mpr hchar hst)
    exact List.map_injective_iff.mpr hseg (le_antisymm h1 h2)⟩

/-- `sorted(list(s))`: the paths of the inclusion set in ascending order. -/
def sortedPaths (s : Finset RelPath) : List RelPath := s.sort pathLe

/-- Membership in `last_items`: `p` is the greatest entry among the paths of
`l` sharing `p`'s parent (`children[-1]` per parent in the sorted list). -/
def isLastItem (l : List RelPath) (p : RelPath) : Bool :=
  l.all (fun q => decide (q.dropLast ≠ p.dropLast) || decide (pathLe q p))

/-- The indentation for one rendered line: four spaces for each ancestor
that is a last sibling, a bar and three spaces otherwise. -/
def ancestorIndent (l : List RelPath) (p : RelPath) : String :=
  String.join ((List.range (p.length - 1)).map
    (fun j => if isLastItem l (p.take (j + 1)) then "    " else "│   "))

/-- One rendered tree line: indentation, connector, final segment name. -/
def renderLine (l : List RelPath) (p : RelPath) : String :=
  ancestorIndent l p ++ (if isLastItem l p then "└── " else "├── ") ++ p.getLastD ""

/-- The fallback message printed when nothing qualifies. -/
def emptyMessage : String := "(포함할 파일 또는 디렉토리가 없습니다.)"

/-- The rendering phase of `generate_tree_string`, as a function of the
inclusion set's contents. -/
def renderTree (rootName : String) (s : Finset RelPath) : String :=
  if s = ∅ then rootName ++ "/\n" ++ emptyMessage ++ "\n"
  else
    String.intercalate "\n"
      ((rootName ++ "/") :: (sortedPaths s).map (renderLine (sortedPaths s)))

/-- `generate_tree_string`: build the inclusion set, then render it. -/
def generate_tree_string (rootName : String) (entries : List Entry) (spec : List IgnoreRule) : String :=
  renderTree rootName (get_filtered_paths entries spec)

/-- The newline character appended by `write_lst` when needed. -/
def nlChar : Char := '\n'

/-- Python's `content.endswith("\n")`: the last character is a newline. -/
def endsWithNewline (s : String) : Bool := decide (s.data.getLast? = some nlChar)

/-- The exact bytes `write_lst` emits for one included file, in write order:
the opening tag line, the content, a conditional newline, the closing tag
line and a blank line. -/
def entryBlock (rel content : String) : String :=
  let tag := rel.replace "\\" "/"
  ("<" ++ tag ++ ">" ++ "\n") ++ content ++
    (if endsWithNewline content then "" else "\n") ++
    ("<" ++ "/" ++ tag ++ ">" ++ "\n" ++ "\n")

/-- The entry format as the spec describes it: an opening tag line, the
content made to end in a newline, the closing tag line, and a blank line. -/
def specEntryBlock (rel content : String) : String :=
  let tag := rel.replace "\\" "/"
  let body := if endsWithNewline content then content else content ++ "\n"
  "<" ++ tag ++ ">" ++ "\n" ++ body ++ "<" ++ "/" ++ tag ++ ">" ++ "\n" ++ "\n"

/-! ### Helper lemmas -/

theorem pathKey_injective : Function.Injective pathKey := by
  have hchar : Function.Injective Char.toNat := fun c d hcd => by
    have h2 := congrArg Char.ofNat hcd
    simpa [Char.ofNat_toNat] using h2
  have hseg : Function.Injective segKey := fun s t hst =>
    String.ext (List.map_injective_iff.mpr hchar hst)
  exact List.map_injective_iff.mpr hseg

theorem mem_get_filtered {entries : List Entry} {spec : List IgnoreRule} {p : RelPath} :
    p ∈ get_filtered_paths entries spec ↔ ∃ e ∈ entries, p ∈ entryContrib spec e := by
  simp [get_filtered_paths]

theorem matchFile_append (rs ds : List IgnoreRule) (ss : RelPath) (t : Bool) :
    matchFile (rs ++ ds) ss t =
      List.foldl (fun acc r => if ruleMatches r ss t then !r.negation else acc)
        (matchFile rs ss t) ds := by
  rw [matchFile, List.foldl_append]; rfl

theorem matchFile_eq_last (rules : List IgnoreRule) (ss : RelPath) (t : Bool) :
    matchFile rules ss t =
      (((rules.filter (fun r => ruleMatches r ss t)).getLast?).map
        (fun r => !r.negation)).getD false := by
  induction rules using List.reverseRecOn with
  | nil => rfl
  | append_singleton rs r ih =>
    rw [matchFile_append, List.foldl_cons, List.foldl_nil, List.filter_append]
    by_cases hm : ruleMatches r ss t
    · simp [hm, List.getLast?_concat]
    · simpa [hm] using ih

/-- C1: the tree's inclusion set and the document's file set disagree: under
the directory-only rule `temp/`, a plain file named `temp` is written into
the document by the `iter_source_files` pass yet absent from the inclusion
set built by `get_filtered_paths`, because only the latter also probes the
matcher with a trailing slash appended. -/
theorem tree_document_disagree :
    (["temp"] : RelPath) ∈
        documentFiles [⟨["temp"], false, false, true⟩] (load_ignore_file ["temp/"]) ∧
    (["temp"] : RelPath) ∉
        get_filtered_paths [⟨["temp"], false, false, true⟩] (load_ignore_file ["temp/"]) := by
  decide

/-- C2 counterexample: a binary file not excluded by any ignore rule does
NOT appear in the tree's inclusion set: `get_filtered_paths` adds a file
only when `is_binary` is false. -/
theorem binary_file_not_in_tree :
    matchFile (load_ignore_file []) ["img.bin"] false = false ∧
    matchFile (load_ignore_file []) ["img.bin"] true = false ∧
    (["img.bin"] : RelPath) ∉
      get_filtered_paths [⟨["img.bin"], false, true, true⟩] (load_ignore_file []) := by
  decide

/-- C2 amended: a binary file is excluded from BOTH the tree's inclusion set
(it contributes nothing in `get_filtered_paths`) and the concatenated
document (`write_lst` skips it); binary-ness affects both, not only the
document. -/
theorem binary_excluded_from_tree_and_document (spec : List IgnoreRule) (e : Entry)
    (h : e.isBinary = true) :
    entryContrib spec e = [] ∧ documentKeep spec e = false := by
  constructor
  · unfold entryContrib
    split_ifs <;> simp_all
  · simp [documentKeep, h]

/-- Witness for the amended C2 theorem at a concrete binary entry. -/
theorem binary_excluded_witness :
    (⟨["img.bin"], false, true, true⟩ : Entry).isBinary = true ∧
    entryContrib [] ⟨["img.bin"], false, true, true⟩ = [] ∧
    documentKeep [] ⟨["img.bin"], false, true, true⟩ = false :=
  ⟨rfl, (binary_excluded_from_tree_and_document [] _ rfl).1,
    (binary_excluded_from_tree_and_document [] _ rfl).2⟩

/-- C3: under the directory-only rule `temp/`, a plain file named `temp` is
not matched by the rule on its plain path but IS matched once a trailing
slash is appended, so `get_filtered_paths` drops it from the inclusion set
while `iter_source_files` still yields it for the document. -/
theorem dir_only_rule_drops_plain_file :
    matchFile (compileRules ["temp/"]) ["temp"] false = false ∧
    matchFile (compileRules ["temp/"]) ["temp"] true = true ∧
    (["temp"] : RelPath) ∉
      get_filtered_paths [⟨["temp"], false, false, true⟩] (compileRules ["temp/"]) ∧
    (["temp"] : RelPath) ∈
      iter_source_files [⟨["temp"], false, false, true⟩] (compileRules ["temp/"]) := by
  decide

/-- C4: the compiled matcher returns the polarity of the last matching rule
(in declaration order), and no match means included; under the rules
`*.log`, `!keep.log` the file `keep.log` is included (negation last),
`other.log` is excluded, and `readme.md`, matched by no rule, is
included. -/
theorem matcher_last_match_polarity :
    (∀ (rules : List IgnoreRule) (ss : RelPath) (t : Bool),
      matchFile rules ss t =
        (((rules.filter (fun r => ruleMatches r ss t)).getLast?).map
          (fun r => !r.negation)).getD false) ∧
    matchFile (compileRules ["*.log", "!keep.log"]) ["keep.log"] false = false ∧
    matchFile (compileRules ["*.log", "!keep.log"]) ["other.log"] false = true ∧
    matchFile (compileRules ["*.log", "!keep.log"]) ["readme.md"] false = false ∧
    (compileRules ["*.log", "!keep.log"]).filter
      (fun r => ruleMatches r ["readme.md"] false) = [] :=
  ⟨matchFile_eq_last, by decide, by decide, by decide, by decide⟩

/-- C8 counterexample: with the output file chosen as `custom.txt` (and no
user rules), the compiled matcher does not exclude the chosen output file
name — `load_ignore_file` appends only the hardcoded default `lst.txt`. -/
theorem chosen_output_not_excluded :
    matchFile (load_ignore_file []) ["custom.txt"] false = false ∧
    matchFile (load_ignore_file []) ["custom.txt"] true = false := by
  decide

/-- C8 amended: for every user rule list, the matcher compiled by
`load_ignore_file` excludes the `.git` directory, the `.lstignore` file and
the DEFAULT output name `lst.txt`, because these defaults are appended as
trailing rules and so take precedence over any user rule, including user
negations; a non-default chosen output name is not covered. -/
theorem defaults_always_excluded (userLines : List String) :
    matchFile (load_ignore_file userLines) [".git"] true = true ∧
    matchFile (load_ignore_file userLines) [".lstignore"] false = true ∧
    matchFile (load_ignore_file userLines) ["lst.txt"] false = true := by
  have hsplit : load_ignore_file userLines =
      compileRules userLines ++ compileRules defaultIgnores := by
    simp [load_ignore_file, compileRules, List.filterMap_append]
  refine ⟨?_, ?_, ?_⟩ <;>
  · rw [hsplit, matchFile_append]
    generalize matchFile (compileRules userLines) _ _ = acc
    cases acc <;> decide

theorem mem_strictAncestors_of_proper {a p : RelPath} (hpre : a <+: p) (hne : a ≠ p)
    (hnil : a ≠ []) : a ∈ strictAncestors p := by
  have hlen : a.length < p.length := by
    rcases lt_or_eq_of_le hpre.length_le with h | h
    · exact h
    · exact absurd (hpre.eq_of_length h) hne
  have hpos : 0 < a.length := List.length_pos.mpr hnil
  have htake : a = p.take a.length := List.prefix_iff_eq_take.mp hpre
  refine List.mem_map.mpr ⟨a.length - 1, List.mem_range.mpr (by omega), ?_⟩
  rw [show a.length - 1 + 1 = a.length from by omega]
  exact htake.symm

theorem mem_entryContrib_iff {spec : List IgnoreRule} {e : Entry} {p : RelPath} :
    p ∈ entryContrib spec e ↔
      matchFile spec e.segs false = false ∧ matchFile spec e.segs true = false ∧
      e.segs ≠ [output_filename] ∧ e.isDir = false ∧ e.isBinary = false ∧
      (p = e.segs ∨ p ∈ strictAncestors e.segs) := by
  unfold entryContrib
  split_ifs with h1 h2 h3 h4
  · simp only [List.not_mem_nil, false_iff]
    rintro ⟨hm1, hm2, -⟩
    rw [hm1, hm2] at h1
    simp at h1
  · simp_all
  · simp_all
  · simp_all
  · simp_all [List.mem_cons, Bool.or_eq_false_iff]

theorem prefix_mem_entryContrib {spec : List IgnoreRule} {e : Entry} {p a : RelPath}
    (hp : p ∈ entryContrib spec e) (hpre : a <+: p) (hne : a ≠ p) (hnil : a ≠ []) :
    a ∈ entryContrib spec e := by
  rw [mem_entryContrib_iff] at hp ⊢
  obtain ⟨hm1, hm2, ho, hd, hb, hcase⟩ := hp
  refine ⟨hm1, hm2, ho, hd, hb, Or.inr ?_⟩
  rcases hcase with hfile | hanc
  · subst hfile
    exact mem_strictAncestors_of_proper hpre hne hnil
  · obtain ⟨k, _, hk⟩ := List.mem_map.mp hanc
    have hps : p <+: e.segs := by rw [← hk]; exact List.take_prefix _ _
    have hlen : a.length < p.length := by
      rcases lt_or_eq_of_le hpre.length_le with h | h
      · exact h
      · exact absurd (hpre.eq_of_length h) hne
    have hnes : a ≠ e.segs := by
      intro hcontra
      have h1 := hps.length_le
      rw [← hcontra] at h1
      omega
    exact mem_strictAncestors_of_proper (hpre.trans hps) hnes hnil

/-- C5: ancestor closure — every strict, nonempty ancestor prefix of a path
in the inclusion set returned by `get_filtered_paths` is also in the set. -/
theorem ancestor_closure (entries : List Entry) (spec : List IgnoreRule) (p a : RelPath)
    (hp : p ∈ get_filtered_paths entries spec) (hpre : a <+: p) (hne : a ≠ p)
    (hnil : a ≠ []) : a ∈ get_filtered_paths entries spec := by
  obtain ⟨e, he, hpe⟩ := mem_get_filtered.mp hp
  exact mem_get_filtered.mpr ⟨e, he, prefix_mem_entryContrib hpe hpre hne hnil⟩

/-- Witness for the C5 theorem: the directory `a` is in the set because the
file `a/b` is. -/
theorem ancestor_closure_witness :
    (["a", "b"] : RelPath) ∈ get_filtered_paths [⟨["a", "b"], false, false, true⟩] [] ∧
    (["a"] : RelPath) <+: ["a", "b"] ∧ (["a"] : RelPath) ≠ ["a", "b"] ∧
    (["a"] : RelPath) ≠ [] ∧
    (["a"] : RelPath) ∈ get_filtered_paths [⟨["a", "b"], false, false, true⟩] [] :=
  ⟨by decide, by decide, by decide, by decide,
    ancestor_closure _ [] ["a", "b"] ["a"] (by decide) (by decide) (by decide) (by decide)⟩

/-- C6: order independence — permuting the walked entries never changes the
inclusion set nor the rendered tree string, and the renderer is a function
of the inclusion set's contents alone. -/
theorem order_independence (rootName : String) (spec : List IgnoreRule)
    (entries1 entries2 : List Entry) (h : entries1.Perm entries2) :
    get_filtered_paths entries1 spec = get_filtered_paths entries2 spec ∧
    generate_tree_string rootName entries1 spec = generate_tree_string rootName entries2 spec ∧
    (∀ s1 s2 : Finset RelPath, s1 = s2 → renderTree rootName s1 = renderTree rootName s2) := by
  have hs : get_filtered_paths entries1 spec = get_filtered_paths entries2 spec :=
    List.toFinset_eq_of_perm _ _ (List.Perm.flatMap_right _ h)
  exact ⟨hs, by rw [generate_tree_string, generate_tree_string, hs],
    fun s1 s2 h12 => by rw [h12]⟩

/-- Witness for the C6 theorem: swapping two walked entries leaves the
inclusion set and the tree string unchanged. -/
theorem order_independence_witness :
    ([(⟨["b"], false, false, true⟩ : Entry), ⟨["a"], false, false, true⟩].Perm
      [⟨["a"], false, false, true⟩, ⟨["b"], false, false, true⟩]) ∧
    get_filtered_paths [(⟨["b"], false, false, true⟩ : Entry), ⟨["a"], false, false, true⟩] [] =
      get_filtered_paths [⟨["a"], false, false, true⟩, ⟨["b"], false, false, true⟩] [] ∧
    generate_tree_string "root"
        [(⟨["b"], false, false, true⟩ : Entry), ⟨["a"], false, false, true⟩] [] =
      generate_tree_string "root"
        [⟨["a"], false, false, true⟩, ⟨["b"], false, false, true⟩] [] :=
  ⟨List.Perm.swap _ _ _,
    (order_independence "root" [] _ _ (List.Perm.swap _ _ _)).1,
    (order_independence "root" [] _ _ (List.Perm.swap _ _ _)).2.1⟩

theorem foldl_nonneg_rules_true (check : IgnoreRule → Bool) (ds : List IgnoreRule) :
    (∀ r ∈ ds, r.negation = false) →
    List.foldl (fun acc r => if check r then !r.negation else acc) true ds = true := by
  induction ds with
  | nil => intro _; rfl
  | cons d ds ih =>
    intro h
    rw [List.foldl_cons, h d (List.mem_cons_self d ds), Bool.not_false, ite_self]
    exact ih (fun r hr => h r (List.mem_cons_of_mem d hr))

theorem globChars_nil_eq (s : List Char) : globChars [] s = s.isEmpty := rfl

theorem globChars_cons_eq (p : Char) (ps s : List Char) :
    globChars (p :: ps) s =
      if p = '*' then
        (List.range (s.length + 1)).any (fun k => globChars ps (s.drop k))
      else
        match s with
        | [] => false
        | c :: cs => p = c && globChars ps cs := rfl

theorem matchSegs_cons_eq (dirOnly trailing : Bool) (p : String) (ps ss : List String) :
    matchSegs dirOnly trailing (p :: ps) ss =
      if p = "**" then
        (List.range (ss.length + 1)).any (fun k => matchSegs dirOnly trailing ps (ss.drop k))
      else
        match ss with
        | [] => false
        | s :: ss2 => globSeg p s && matchSegs dirOnly trailing ps ss2 := rfl

theorem globChars_single_star (cs : List Char) : globChars ['*'] cs = true := by
  rw [globChars_cons_eq, if_pos rfl]
  refine List.any_eq_true.mpr ⟨cs.length, List.mem_range.mpr (Nat.lt_succ_self _), ?_⟩
  rw [List.drop_length, globChars_nil_eq]
  rfl

theorem star_rule_matches (ss : RelPath) (h : ss ≠ []) :
    matchFile (load_ignore_file ["*"]) ss false = true := by
  obtain ⟨s, ss2, rfl⟩ := List.exists_cons_of_ne_nil h
  have hload : load_ignore_file ["*"] =
      ⟨false, false, false, ["*"]⟩ :: compileRules defaultIgnores := rfl
  rw [hload, matchFile, List.foldl_cons]
  have hstar : ruleMatches ⟨false, false, false, ["*"]⟩ (s :: ss2) false = true := by
    rw [ruleMatches, if_neg (by decide)]
    refine List.any_eq_true.mpr ⟨0, List.mem_range.mpr (Nat.succ_pos _), ?_⟩
    rw [List.drop_zero, matchSegs_cons_eq, if_neg (by decide : ¬("*" : String) = "**")]
    show globSeg "*" s && matchSegs false false [] ss2 = true
    rw [Bool.and_eq_true]
    exact ⟨globChars_single_star s.data, rfl⟩
  rw [hstar]
  simp only [if_true, Bool.not_false]
  exact foldl_nonneg_rules_true _ (compileRules defaultIgnores) (by decide)

theorem star_rule_empties (entries : List Entry) (h : ∀ e ∈ entries, e.segs ≠ []) :
    get_filtered_paths entries (load_ignore_file ["*"]) = ∅ := by
  rw [Finset.eq_empty_iff_forall_not_mem]
  intro p hp
  obtain ⟨e, he, hpe⟩ := mem_get_filtered.mp hp
  have hm : matchFile (load_ignore_file ["*"]) e.segs false = true :=
    star_rule_matches e.segs (h e he)
  rw [mem_entryContrib_iff] at hpe
  rw [hm] at hpe
  simp at hpe

/-- C9 counterexample: the fallback string returned for an empty inclusion
set (here forced by the ignore rule `*` over a non-empty tree) is not a
single line: it contains two newline characters with the message on a
second line after the root-name line. -/
theorem empty_fallback_not_single_line :
    generate_tree_string "root" [⟨["a.txt"], false, false, true⟩] (load_ignore_file ["*"]) =
      "root/\n(포함할 파일 또는 디렉토리가 없습니다.)\n" ∧
    ("root/\n(포함할 파일 또는 디렉토리가 없습니다.)\n").data.count nlChar = 2 ∧
    (("root/\n(포함할 파일 또는 디렉토리가 없습니다.)\n").data.dropWhile
        (fun c => !(c = nlChar))).tail ≠ [] := by
  refine ⟨by decide, by decide, by decide⟩

/-- C9 amended: when the inclusion set is empty, `generate_tree_string`
returns the two-line fallback — the root name line followed by the
nothing-qualifies message line — never the empty string; and the ignore
rule `*` over any tree of nonempty relative paths empties the inclusion
set. -/
theorem empty_fallback (rootName : String) (entries : List Entry) (spec : List IgnoreRule) :
    (get_filtered_paths entries spec = ∅ →
      generate_tree_string rootName entries spec = rootName ++ "/\n" ++ emptyMessage ++ "\n" ∧
      generate_tree_string rootName entries spec ≠ "") ∧
    ((∀ e ∈ entries, e.segs ≠ []) →
      get_filtered_paths entries (load_ignore_file ["*"]) = ∅) := by
  constructor
  · intro h
    have heq : generate_tree_string rootName entries spec =
        rootName ++ "/\n" ++ emptyMessage ++ "\n" := by
      rw [generate_tree_string, h, renderTree, if_pos rfl]
    refine ⟨heq, ?_⟩
    rw [heq]
    intro hcontra
    have hd := congrArg String.data hcontra
    rw [String.data_append] at hd
    exact List.append_ne_nil_of_right_ne_nil _
      (by decide : ("\n" : String).data ≠ []) hd
  · exact star_rule_empties entries

/-- Witness for the C9 theorem: under the rule `*`, one non-binary file
produces the empty inclusion set and a nonempty fallback string. -/
theorem empty_fallback_witness :
    (∀ e ∈ ([⟨["a.txt"], false, false, true⟩] : List Entry), e.segs ≠ []) ∧
    get_filtered_paths [⟨["a.txt"], false, false, true⟩] (load_ignore_file ["*"]) = ∅ ∧
    generate_tree_string "root" [⟨["a.txt"], false, false, true⟩] (load_ignore_file ["*"]) ≠ "" :=
  ⟨by decide,
    (empty_fallback "root" [⟨["a.txt"], false, false, true⟩] (load_ignore_file ["*"])).2
      (by decide),
    ((empty_fallback "root" [⟨["a.txt"], false, false, true⟩] (load_ignore_file ["*"])).1
      ((empty_fallback "root" [⟨["a.txt"], false, false, true⟩] (load_ignore_file ["*"])).2
        (by decide))).2⟩

theorem endsWithNewline_append_nl (s : String) : endsWithNewline (s ++ "\n") = true := by
  simp only [endsWithNewline, decide_eq_true_eq, String.data_append]
  exact List.getLast?_concat _

/-- C10: the block `write_lst` emits for one file is exactly the opening
tag line, the content with a newline appended when and only when the
content does not already end in one, the closing tag line and a blank
line; the body between the tags always ends with a newline. -/
theorem entry_block_format (rel content : String) :
    entryBlock rel content = specEntryBlock rel content ∧
    endsWithNewline (if endsWithNewline content then content else content ++ "\n") = true ∧
    ((if endsWithNewline content then content else content ++ "\n") = content ↔
      endsWithNewline content = true) := by
  by_cases h : endsWithNewline content = true
  · refine ⟨?_, ?_, ?_⟩
    · unfold entryBlock specEntryBlock
      rw [if_pos h, if_pos h]
      simp only [String.append_assoc, String.append_empty]
    · rw [if_pos h]; exact h
    · rw [if_pos h]; exact iff_of_true rfl h
  · have hne : (content ++ "\n") ≠ content := by
      intro hc
      have hlen := congrArg String.length hc
      rw [String.length_append] at hlen
      have h1 : ("\n" : String).length = 1 := rfl
      omega
    refine ⟨?_, ?_, ?_⟩
    · unfold entryBlock specEntryBlock
      rw [if_neg h, if_neg h]
      simp only [String.append_assoc]
    · rw [if_neg h]; exact endsWithNewline_append_nl content
    · rw [if_neg h]; exact iff_of_false hne h

theorem segKey_injective : Function.Injective segKey := by
  have hchar : Function.Injective Char.toNat := fun c d hcd => by
    have h2 := congrArg Char.ofNat hcd
    simpa [Char.ofNat_toNat] using h2
  exact fun s t hst => String.ext (List.map_injective_iff.mpr hchar hst)

theorem lex_cons_inv {β : Type _} {r : β → β → Prop} {x y : β} {l₁ l₂ : List β}
    (h : List.Lex r (x :: l₁) (y :: l₂)) : r x y ∨ (x = y ∧ List.Lex r l₁ l₂) := by
  cases h with
  | cons h2 => exact Or.inr ⟨rfl, h2⟩
  | rel hr => exact Or.inl hr

theorem lex_of_proper_prefix {β : Type _} [LinearOrder β] :
    ∀ (l m : List β), l <+: m → l ≠ m → List.Lex (· < ·) l m := by
  intro l
  induction l with
  | nil =>
    intro m _ hne
    cases m with
    | nil => exact absurd rfl hne
    | cons c t => exact List.Lex.nil
  | cons a l ih =>
    intro m h hne
    obtain ⟨t, rfl⟩ := h
    rw [List.cons_append]
    refine List.Lex.cons (ih (l ++ t) ⟨t, rfl⟩ ?_)
    intro hl
    apply hne
    have ht : t = [] := by
      have hlen := congrArg List.length hl
      rw [List.length_append] at hlen
      exact List.length_eq_zero.mp (by omega)
    rw [ht, List.append_nil]

theorem lex_between {β : Type _} [LinearOrder β] :
    ∀ (pre p r q : List β), pre <+: p → pre <+: r →
      List.Lex (· < ·) p q → List.Lex (· < ·) q r → pre <+: q := by
  intro pre
  induction pre with
  | nil => intro p r q _ _ _ _; exact List.nil_prefix
  | cons a pre ih =>
    intro p r q hp hr hpq hqr
    obtain ⟨tp, rfl⟩ := hp
    obtain ⟨tr, rfl⟩ := hr
    rw [List.cons_append] at hpq hqr
    cases hpq with
    | rel hab =>
      cases hqr with
      | rel hba => exact absurd hba (lt_asymm hab)
      | cons h2 => exact absurd hab (lt_irrefl a)
    | cons h1 =>
      cases hqr with
      | rel haa => exact absurd haa (lt_irrefl a)
      | cons h2 =>
        obtain ⟨t, ht⟩ := ih (pre ++ tp) (pre ++ tr) _ ⟨tp, rfl⟩ ⟨tr, rfl⟩ h1 h2
        exact ⟨t, by rw [List.cons_append, ht]⟩

theorem map_prefix_reflect {α β : Type _} {f : α → β} (hf : Function.Injective f)
    {l m : List α} (h : l.map f <+: m.map f) : l <+: m := by
  rw [List.prefix_iff_eq_take] at h ⊢
  rw [List.length_map, ← List.map_take] at h
  exact List.map_injective_iff.mpr hf h

theorem lex_map_iff {α β : Type _} {f : α → β} (hf : Function.Injective f)
    (r : β → β → Prop) :
    ∀ p q : List α,
      List.Lex r (p.map f) (q.map f) ↔ List.Lex (fun a b => r (f a) (f b)) p q := by
  intro p
  induction p with
  | nil =>
    intro q
    cases q with
    | nil => exact Iff.intro (fun h => nomatch h) (fun h => nomatch h)
    | cons b t => exact ⟨fun _ => List.Lex.nil, fun _ => List.Lex.nil⟩
  | cons a p ih =>
    intro q
    cases q with
    | nil => exact Iff.intro (fun h => nomatch h) (fun h => nomatch h)
    | cons b t =>
      constructor
      · intro h
        rcases lex_cons_inv h with hr | ⟨heq, h2⟩
        · exact List.Lex.rel hr
        · cases hf heq
          exact List.Lex.cons ((ih t).mp h2)
      · intro h
        cases h with
        | rel hr => exact List.Lex.rel hr
        | cons h2 => exact List.Lex.cons ((ih t).mpr h2)

theorem sortedPaths_sorted_lt (s : Finset RelPath) :
    List.Sorted pathLt (sortedPaths s) := by
  have h1 := Finset.sort_sorted pathLe s
  have h2 := Finset.sort_nodup pathLe s
  exact List.Pairwise.imp
    (fun hab => lt_of_le_of_ne hab.1 (fun hk => hab.2 (pathKey_injective hk)))
    (List.Pairwise.and h1 h2)

theorem sorted_consecutive :
    ∀ (l : List RelPath), List.Sorted pathLt l →
      ∀ d x : RelPath, d ∈ l → x ∈ l → pathLt d x →
      (∀ q ∈ l, ¬(pathLt d q ∧ pathLt q x)) →
      ∃ i, l[i]? = some d ∧ l[i + 1]? = some x := by
  intro l
  induction l with
  | nil => intro _ d x hd; exact absurd hd (List.not_mem_nil d)
  | cons a t ih =>
    intro hs d x hd hx hdx hq
    have hsort := List.sorted_cons.mp hs
    rcases List.mem_cons.mp hd with rfl | hdt
    · have hxt : x ∈ t := by
        rcases List.mem_cons.mp hx with rfl | h
        · exact absurd hdx (lt_irrefl _)
        · exact h
      cases t with
      | nil => exact absurd hxt (List.not_mem_nil x)
      | cons b t2 =>
        have hb : b = x := by
          by_contra hbx
          have hxbt : x ∈ t2 := by
            rcases List.mem_cons.mp hxt with rfl | h
            · exact absurd rfl hbx
            · exact h
          have hbt := List.sorted_cons.mp hsort.2
          exact hq b (List.mem_cons_of_mem _ (List.mem_cons_self b t2))
            ⟨hsort.1 b (List.mem_cons_self b t2), hbt.1 x hxbt⟩
        exact ⟨0, by simp, by simp [hb]⟩
    · have hxt : x ∈ t := by
        rcases List.mem_cons.mp hx with rfl | h
        · exact absurd (hsort.1 d hdt) (lt_asymm hdx)
        · exact h
      obtain ⟨i, h1, h2⟩ := ih hsort.2 d x hdt hxt hdx
        (fun q hq2 hcontra => hq q (List.mem_cons_of_mem a hq2) hcontra)
      exact ⟨i + 1, by simpa using h1, by simpa using h2⟩

/-- C7: the renderer sorts the inclusion set lexicographically over segment
sequences (first conjunct characterises the order, second states
strict sortedness of the rendered list); between two siblings only
descendants of their shared parent occur, so siblings are grouped
contiguously (third conjunct); and a directory of the set is placed
immediately before its least descendant in the set (fourth conjunct). -/
theorem renderer_sort_properties (entries : List Entry) (spec : List IgnoreRule) :
    (∀ p q : RelPath, pathLt p q ↔
      List.Lex (fun a b : String => List.Lex (· < ·) (segKey a) (segKey b)) p q) ∧
    List.Sorted pathLt (sortedPaths (get_filtered_paths entries spec)) ∧
    (∀ p q r : RelPath, p ∈ get_filtered_paths entries spec →
      q ∈ get_filtered_paths entries spec → r ∈ get_filtered_paths entries spec →
      p.dropLast = r.dropLast → pathLt p q → pathLt q r → p.dropLast <+: q) ∧
    (∀ d x : RelPath, d ∈ get_filtered_paths entries spec →
      x ∈ get_filtered_paths entries spec → d <+: x → d ≠ x →
      (∀ y ∈ get_filtered_paths entries spec, d <+: y → d ≠ y → pathLe x y) →
      ∃ i, (sortedPaths (get_filtered_paths entries spec))[i]? = some d ∧
        (sortedPaths (get_filtered_paths entries spec))[i + 1]? = some x) := by
  refine ⟨fun p q => lex_map_iff segKey_injective _ p q, sortedPaths_sorted_lt _, ?_, ?_⟩
  · intro p q r _ _ _ hpar hpq hqr
    have h1 : p.dropLast <+: p := List.dropLast_prefix p
    have h2 : p.dropLast <+: r := by rw [hpar]; exact List.dropLast_prefix r
    exact map_prefix_reflect segKey_injective
      (lex_between _ _ _ _ (h1.map segKey) (h2.map segKey) hpq hqr)
  · intro d x hd hx hpre hne hmin
    have hdl : d ∈ sortedPaths (get_filtered_paths entries spec) :=
      (Finset.mem_sort pathLe).mpr hd
    have hxl : x ∈ sortedPaths (get_filtered_paths entries spec) :=
      (Finset.mem_sort pathLe).mpr hx
    have hdx : pathLt d x :=
      lex_of_proper_prefix _ _ (hpre.map segKey)
        (fun hk => hne (pathKey_injective hk))
    refine sorted_consecutive _ (sortedPaths_sorted_lt _) d x hdl hxl hdx ?_
    intro q hql hcontra
    have hqs : q ∈ get_filtered_paths entries spec := (Finset.mem_sort pathLe).mp hql
    have hdq : d <+: q := map_prefix_reflect segKey_injective
      (lex_between _ _ _ _ (List.prefix_refl (pathKey d)) (hpre.map segKey)
        hcontra.1 hcontra.2)
    have hdnq : d ≠ q := fun hcontra2 => by
      rw [hcontra2] at hcontra
      exact lt_irrefl _ hcontra.1
    exact lt_irrefl _ (lt_of_lt_of_le hcontra.2 (hmin q hqs hdq hdnq))

/-- Witness for the C7 theorem: with files `a/b` and `a/c` included, the
directory `a` sits immediately before its least descendant `a/b` in the
sorted list, and the sibling-grouping conjunct applies to `a/b < a/c`. -/
theorem renderer_sort_properties_witness :
    ((["a"] : RelPath) ∈
      get_filtered_paths
        [(⟨["a", "b"], false, false, true⟩ : Entry), ⟨["a", "c"], false, false, true⟩] []) ∧
    ((["a", "b"] : RelPath) ∈
      get_filtered_paths
        [(⟨["a", "b"], false, false, true⟩ : Entry), ⟨["a", "c"], false, false, true⟩] []) ∧
    (["a"] : RelPath) <+: ["a", "b"] ∧ (["a"] : RelPath) ≠ ["a", "b"] ∧
    (∀ y ∈ get_filtered_paths
        [(⟨["a", "b"], false, false, true⟩ : Entry), ⟨["a", "c"], false, false, true⟩] [],
      (["a"] : RelPath) <+: y → (["a"] : RelPath) ≠ y → pathLe ["a", "b"] y) ∧
    (∃ i, (sortedPaths (get_filtered_paths
        [(⟨["a", "b"], false, false, true⟩ : Entry), ⟨["a", "c"], false, false, true⟩] []))[i]? =
          some ["a"] ∧
      (sortedPaths (get_filtered_paths
        [(⟨["a", "b"], false, false, true⟩ : Entry), ⟨["a", "c"], false, false, true⟩] []))[i + 1]? =
          some ["a", "b"]) :=
  ⟨by decide, by decide, by decide, by decide, by decide,
    (renderer_sort_properties
      [(⟨["a", "b"], false, false, true⟩ : Entry), ⟨["a", "c"], false, false, true⟩] []).2.2.2
      ["a"] ["a", "b"] (by decide) (by decide) (by decide) (by decide) (by decide)⟩

end GenerateLst
